import Mathlib

/-!
Verification development for the bounded-concurrency batch dispatcher
(`src/batch/batch_insert.py`, class `BatchInsert`).

The Python source is shallowly embedded:

* `DataFrame` models a pandas dataframe as named columns plus a list of rows;
  `dfProject` models `data_df[col_names]`, `dfSlice` models positional row
  slicing `data_df[a:b]`, and `to_csv` models
  `DataFrame.to_csv(buf, header=False, index=False)` at line granularity.
* `get_ranges` models the partition helper `src/utils/dataframe_utils.get_ranges`
  (that file is not shipped here, so it is modelled from the specification).
* `retryRun` models the `@retry(Exception, tries=3, delay=2, backoff=1)`
  decorator from the external `retry` package, as described by the spec
  (RetryPolicy), and `open_connection_pool` / `close_connection_pool` /
  `bulk_load_retried` are the three decorated operations of the source.
* `bulkLoadAttemptTr` gives the event trace of a single `bulk_load` attempt,
  mirroring the nesting of the `async with` blocks of the source.
* `executeF` is a functional summary of `BatchInsert.execute`.
* `Sched` / `stepF` / `runS` give a small-step interleaving semantics for the
  dispatch phase (`handle_csv_bulk_insert`), in which each transfer task is a
  state machine over the phases of `bulk_load` and `asyncio.gather` completes
  with the first raised error.
-/

/-- Error taxonomy of the spec (section 7), plus a constructor standing for
task cancellation by the surrounding context. -/
inductive Err
  | invalidArgument
  | poolTimeout
  | serializationError
  | transferProtocolError
  | poolLifecycleError
  | cancelled
deriving DecidableEq, Repr

/-- A pandas dataframe: named columns in declared order, and rows of cells.
Each row is a list of cell texts, positionally aligned with `cols`. -/
structure DataFrame where
  cols : List String
  rows : List (List String)
deriving DecidableEq, Repr

/-- Cell of `row` under the column named `name` (columns listed in `cols`).
Missing names render as the empty text. -/
def cellOf (cols : List String) (row : List String) (name : String) : String :=
  match cols.indexOf? name with
  | some i => row.getD i ""
  | none => ""

/-- Column projection, modelling `data_df[col_names]`: keeps the requested
columns, in the requested order. -/
def dfProject (df : DataFrame) (names : List String) : DataFrame :=
  ⟨names, df.rows.map fun row => names.map (cellOf df.cols row)⟩

/-- Positional row slice, modelling `data_df[a:b]` on a range-indexed frame. -/
def dfSlice (df : DataFrame) (a b : Nat) : DataFrame :=
  ⟨df.cols, (df.rows.drop a).take (b - a)⟩

/-- CSV rendering of one cell, with the standard minimal quoting: a cell
holding a delimiter, a quote or a line break is wrapped in quotes and inner
quotes are doubled. -/
def csvCell (s : String) : String :=
  if s.toList.any (fun c => c = ',' || c = '\"' || c = '\n' || c = '\r') then
    "\"" ++ String.join (s.toList.map fun c =>
      if c = '\"' then "\"\"" else String.singleton c) ++ "\""
  else s

/-- CSV rendering of one row: comma-separated cells. -/
def renderRow (row : List String) : String :=
  String.intercalate "," (row.map csvCell)

/-- CSV serialization of a dataframe at line granularity, modelling
`df.to_csv(buffer, header=header, index=False)`: one line per row, in order,
preceded by a column-name line exactly when `header` is true. -/
def to_csv (df : DataFrame) (header : Bool) : List String :=
  (if header then [renderRow df.cols] else []) ++ df.rows.map renderRow

/-- Modelled from the spec: the partition helper `get_ranges` lives in
`src/utils/dataframe_utils`, which is not included in the sources; spec
section 4.1 fixes its contract. Auxiliary loop: starting at `start`, emit
ranges of length `bs` (the final one clipped to `total`) while `start < total`.
`fuel` bounds the recursion; `fuel = total` is enough whenever `1 ≤ bs`. -/
def mkRangesAux (bs : Nat) : Nat → Nat → Nat → List (Nat × Nat)
  | 0, _, _ => []
  | fuel + 1, start, total =>
    if start < total then
      (start, min (start + bs) total) :: mkRangesAux bs fuel (start + bs) total
    else []

/-- Modelled from the spec: `get_ranges(total_rows, batch_size)` of
`src/utils/dataframe_utils` (spec section 4.1). Fails with `InvalidArgument`
when `batch_size ≤ 0`; otherwise returns the ordered ranges of length
`batch_size` covering `[0, total_rows)`, the final one possibly shorter. -/
def get_ranges (total_rows : Nat) (batch_size : Int) : Except Err (List (Nat × Nat)) :=
  if batch_size ≤ 0 then .error .invalidArgument
  else .ok (mkRangesAux batch_size.toNat total_rows 0 total_rows)

instance exceptDecEq {ε α : Type} [DecidableEq ε] [DecidableEq α] :
    DecidableEq (Except ε α)
  | .ok x, .ok y =>
    if h : x = y then .isTrue (congrArg Except.ok h)
    else .isFalse (fun hc => h (Except.ok.inj hc))
  | .error x, .error y =>
    if h : x = y then .isTrue (congrArg Except.error h)
    else .isFalse (fun hc => h (Except.error.inj hc))
  | .ok _, .error _ => .isFalse (fun hc => Except.noConfusion hc)
  | .error _, .ok _ => .isFalse (fun hc => Except.noConfusion hc)

/-- Specification-side description of a good partition of `[0, total)` into
ranges of length `bs`: contiguous in order, every range of length `bs` except
possibly the final one (which is nonempty and no longer than `bs`), pairwise
non-overlapping, and with union exactly `[0, total)`. -/
def GoodPartition (total : Nat) (bs : Int) (R : List (Nat × Nat)) : Prop :=
  (∀ i (h : i + 1 < R.length),
      (R.get ⟨i, Nat.lt_of_succ_lt h⟩).2 = (R.get ⟨i + 1, h⟩).1) ∧
  (∀ i (h : i + 1 < R.length),
      ((R.get ⟨i, Nat.lt_of_succ_lt h⟩).2 : Int)
        - ((R.get ⟨i, Nat.lt_of_succ_lt h⟩).1 : Int) = bs) ∧
  (∀ r ∈ R, r.1 < r.2 ∧ ((r.2 : Int) - (r.1 : Int)) ≤ bs) ∧
  List.Pairwise (fun a b : Nat × Nat => a.2 ≤ b.1) R ∧
  (∀ x : Nat, x < total ↔ ∃ r ∈ R, r.1 ≤ x ∧ x < r.2)

/-- Outcome script of one transfer task: for each attempt index, whether the
pool lease is obtained in time, and the outcome of the payload write
(success, a raised error, or cancellation). -/
abbrev Script := Nat → Bool × Except Err Unit

/-- Modelled from the spec: the retry wrapper provided by the external
`retry` package (`@retry(Exception, tries, delay, backoff)`), described in
spec section 4.2. `retryAux op delay backoff remaining i` performs attempt
`i`; on an error with `remaining > 0` attempts left it sleeps
`delay * backoff ^ i` and recurses. Returns the final outcome together with
the list of sleeps performed between attempts. -/
def retryAux (op : Nat → Except Err α) (delay backoff : Nat) :
    Nat → Nat → Except Err α × List Nat
  | 0, i => (op i, [])
  | r + 1, i =>
    match op i with
    | .ok a => (.ok a, [])
    | .error _ =>
      let p := retryAux op delay backoff r (i + 1)
      (p.1, delay * backoff ^ i :: p.2)

/-- Modelled from the spec: run `op` under the retry policy, up to `tries`
total attempts. -/
def retryRun (tries delay backoff : Nat) (op : Nat → Except Err α) :
    Except Err α × List Nat :=
  retryAux op delay backoff (tries - 1) 0

/-- Pool opening, per source line 35: `@retry(Exception, tries=3, delay=2,
backoff=1)` around `await self.pool.open(wait=True)`; `openOp i` is the
outcome of the i-th open attempt against the external pool. -/
def open_connection_pool (openOp : Nat → Except Err Unit) :
    Except Err Unit × List Nat :=
  retryRun 3 2 1 openOp

/-- Pool closing, per source line 39: the same decorator around
`await self.pool.close()`. -/
def close_connection_pool (closeOp : Nat → Except Err Unit) :
    Except Err Unit × List Nat :=
  retryRun 3 2 1 closeOp

/-- Specification-side restatement (spec sections 4.2 and 4.3) of what the
retry policy with 3 total attempts, delay 2 and backoff factor 1 must do:
at most three invocations, a constant 2-unit sleep between attempts, and the
third outcome returned unchanged when the first two attempts fail. -/
def retryPolicySpec (op : Nat → Except Err α) : Except Err α × List Nat :=
  match op 0 with
  | .ok a => (.ok a, [])
  | .error _ =>
    match op 1 with
    | .ok a => (.ok a, [2])
    | .error _ => (op 2, [2, 2])

/-- Resource events of one `bulk_load` attempt. -/
inductive Ev
  | permitAcq
  | permitRel
  | leaseReq (timeout : Nat)
  | leaseAcq
  | leaseRel
  | copyWrite
deriving DecidableEq, Repr

/-- Trace semantics of `async with semaphore:` around a body: the permit is
acquired first and released after the body on every exit path, the body's
outcome passing through. -/
def withSemaphore (body : List Ev × Except Err α) : List Ev × Except Err α :=
  (Ev.permitAcq :: body.1 ++ [Ev.permitRel], body.2)

/-- Trace semantics of `async with pool.connection(timeout=...) as s:`: the
lease is requested with the given timeout; if unavailable in time the block
raises the pool-timeout error without running the body, otherwise the lease
is held for the body and released on every exit path. -/
def poolConnection (timeout : Nat) (leaseOk : Bool)
    (body : List Ev × Except Err α) : List Ev × Except Err α :=
  if leaseOk then
    (Ev.leaseReq timeout :: Ev.leaseAcq :: body.1 ++ [Ev.leaseRel], body.2)
  else ([Ev.leaseReq timeout], .error .poolTimeout)

/-- Innermost body of `bulk_load`: the serialized payload is written to the
copy channel; `wres` is the outcome (success, a raised error such as a
serialization or protocol failure, or cancellation). -/
def copyStream (wres : Except Err Unit) : List Ev × Except Err Unit :=
  ([Ev.copyWrite], wres)

/-- One attempt of `bulk_load` (source lines 84-94): the nested
`async with semaphore: ... async with pool.connection(timeout=60): ...`
blocks, at resource-event granularity. -/
def bulkLoadAttemptTr (leaseOk : Bool) (wres : Except Err Unit) :
    List Ev × Except Err Unit :=
  withSemaphore (poolConnection 60 leaseOk (copyStream wres))

/-- Outcome of attempt `a` of a task with script `sc`. -/
def attemptResult (sc : Script) (a : Nat) : Except Err Unit :=
  (bulkLoadAttemptTr (sc a).1 (sc a).2).2

/-- The `bulk_load` coroutine as decorated at source line 83:
`@retry(Exception, tries=3, delay=2, backoff=1)` around the attempt. -/
def bulk_load_retried (sc : Script) : Except Err Unit × List Nat :=
  retryRun 3 2 1 (attemptResult sc)

/-- Final outcome of one transfer task after its retries. -/
def scriptRetryResult (sc : Script) : Except Err Unit :=
  (bulk_load_retried sc).1

/-- The COPY command built at source line 86 from the destination identifier
and the joined column names. -/
def copyQuery (dest cols : String) : String :=
  "COPY " ++ dest ++ " (" ++ cols ++ ") FROM STDIN WITH (FORMAT CSV, DELIMITER ',')"

/-- Python truthiness of the `col_names` argument (`if col_names:`): `None`
and the empty list are both falsy. -/
def truthy : Option (List String) → Bool
  | some (_ :: _) => true
  | _ => false

/-- Dispatcher state, per `BatchInsert.__init__`: configuration plus the
`data_df` field shared with the transfer tasks during a dispatch. The pool
itself is an external collaborator and is not part of the state. -/
structure BatchInsert where
  batch_size : Int
  table_name : String
  schema : String
  min_conn : Nat
  max_conn : Nat
  data_df : Option DataFrame
deriving DecidableEq, Repr

/-- Observable outcome of one `execute` call: the dispatcher state on return,
the call result (normal return or raised error), and, for each launched
transfer task in range order, the COPY command and the payload lines that
task streams when it succeeds. -/
structure ExecOut where
  state : BatchInsert
  result : Except Err Unit
  sent : List (String × List String)
deriving DecidableEq, Repr

/-- First error of the task results, in task order (the error
`asyncio.gather` propagates under the canonical in-order schedule). -/
def firstError : List (Except Err Unit) → Except Err Unit
  | [] => .ok ()
  | .ok _ :: rest => firstError rest
  | .error e :: _ => .error e

/-- Column projection step of `execute` (source lines 58-59):
`if col_names: data_df = data_df[col_names]`. -/
def projectForInsert (df : DataFrame) (colNames : Option (List String)) : DataFrame :=
  if truthy colNames then dfProject df (colNames.getD []) else df

/-- Functional summary of `BatchInsert.execute` (source lines 44-69) together
with the per-range work of `handle_csv_bulk_insert` and `bulk_load`:
partition, the empty no-op case, projection, column-name join, the payload
each launched task streams, and the first-failure result of the dispatch.
`env i` is the outcome script of the task for range `i`. The `finally:
self.data_df = None` of the source is the `data_df := none` in every branch
of the returned state. -/
def executeF (b : BatchInsert) (df : DataFrame) (colNames : Option (List String))
    (env : Nat → Script) : ExecOut :=
  match get_ranges df.rows.length b.batch_size with
  | .error e => ⟨{ b with data_df := none }, .error e, []⟩
  | .ok ranges =>
    if ranges.isEmpty then ⟨{ b with data_df := none }, .ok (), []⟩
    else
      let df2 := projectForInsert df colNames
      let cols := String.intercalate ","
        (if truthy colNames then colNames.getD [] else df2.cols)
      let dest := b.schema ++ "." ++ b.table_name
      ⟨{ b with data_df := none },
       firstError ((List.range ranges.length).map fun i => scriptRetryResult (env i)),
       ranges.map fun r => (copyQuery dest cols, to_csv (dfSlice df2 r.1 r.2) false)⟩

/-- Phase of one transfer task inside `bulk_load`, between the suspension
points of the source: waiting on the semaphore, about to request a lease,
about to write the payload, leaving the lease block, leaving the semaphore
block (carrying the attempt outcome), or completed. -/
inductive Phase
  | atPermit
  | atLease
  | atWrite
  | relLease (r : Except Err Unit)
  | relPermit (r : Except Err Unit)
  | done (r : Except Err Unit)
deriving DecidableEq, Repr

/-- Scheduler view of one transfer task: its current retry attempt index and
phase. -/
structure STask where
  attempt : Nat
  phase : Phase
deriving DecidableEq, Repr

/-- Whether a phase has the task completed. -/
def phaseDone : Phase → Bool
  | .done _ => true
  | _ => false

/-- Number of semaphore permits a task in the given phase holds: one from
the moment `async with semaphore` succeeds until the block is exited. -/
def permitVal : Phase → Nat
  | .atLease | .atWrite | .relLease _ | .relPermit _ => 1
  | _ => 0

/-- State of the dispatch phase of one `execute` call: the shared semaphore
counter, the transfer tasks, the first error raised by any task (which
completes the `asyncio.gather` future), and the result `execute` has
returned with, if it has. -/
structure Sched where
  sem : Nat
  tasks : List STask
  gatherErr : Option Err
  execRet : Option (Except Err Unit)
deriving DecidableEq, Repr

/-- Scheduler choice: run one step of task `i`, or resume the parent
`execute` coroutine awaiting the gather. -/
inductive Choice
  | task (i : Nat)
  | parent
deriving DecidableEq, Repr

/-- Initial dispatch state built by `handle_csv_bulk_insert` (source lines
71-81): a single fresh semaphore sized to `min_conn`, shared by one task per
range, each at its first attempt. -/
def initSched (minConn n : Nat) : Sched :=
  ⟨minConn, List.replicate n ⟨0, .atPermit⟩, none, none⟩

/-- One interleaving step of the cooperative scheduler. Task steps follow the
`bulk_load` state machine: acquiring the semaphore requires a free permit;
a failed lease request raises the pool-timeout error out of the connection
block; exiting the semaphore block releases the permit and either finishes
the task, retries a failed attempt (while fewer than 3 attempts were used,
per the retry decorator), or finishes with the last error, which also
completes the gather future if it is the first error. The parent `execute`
resumes once the gather future is complete: with the first raised error, or
with success once every task is done. Disabled choices return `none`. -/
def stepF (scripts : List Script) (s : Sched) : Choice → Option Sched
  | .task i =>
    match s.tasks[i]?, scripts[i]? with
    | some t, some sc =>
      match t.phase with
      | .atPermit =>
        if 0 < s.sem then
          some { s with sem := s.sem - 1,
                        tasks := s.tasks.set i { t with phase := .atLease } }
        else none
      | .atLease =>
        if (sc t.attempt).1 then
          some { s with tasks := s.tasks.set i { t with phase := .atWrite } }
        else
          some { s with
            tasks := s.tasks.set i { t with phase := .relPermit (.error .poolTimeout) } }
      | .atWrite =>
        some { s with
          tasks := s.tasks.set i { t with phase := .relLease (sc t.attempt).2 } }
      | .relLease r =>
        some { s with tasks := s.tasks.set i { t with phase := .relPermit r } }
      | .relPermit r =>
        match r with
        | .ok _ =>
          some { s with sem := s.sem + 1,
                        tasks := s.tasks.set i { t with phase := .done (.ok ()) } }
        | .error e =>
          if t.attempt + 1 < 3 then
            some { s with sem := s.sem + 1,
                          tasks := s.tasks.set i ⟨t.attempt + 1, .atPermit⟩ }
          else
            some { s with sem := s.sem + 1,
                          tasks := s.tasks.set i { t with phase := .done (.error e) },
                          gatherErr := match s.gatherErr with
                            | some e0 => some e0
                            | none => some e }
      | .done _ => none
    | _, _ => none
  | .parent =>
    match s.execRet with
    | some _ => none
    | none =>
      match s.gatherErr with
      | some e => some { s with execRet := some (.error e) }
      | none =>
        if s.tasks.all (fun t => phaseDone t.phase) then
          some { s with execRet := some (.ok ()) }
        else none

/-- Run the scheduler along a list of choices; `none` when a choice was
disabled. -/
def runS (scripts : List Script) : Sched → List Choice → Option Sched
  | s, [] => some s
  | s, c :: cs =>
    match stepF scripts s c with
    | none => none
    | some s2 => runS scripts s2 cs

/-- Total number of semaphore permits currently held by the tasks. -/
def permitsHeld (s : Sched) : Nat :=
  (s.tasks.map fun t => permitVal t.phase).sum

/-- Upper bound on the number of scheduler steps a task still needs:
steps left in the current attempt plus five per remaining retry. -/
def remTask (t : STask) : Nat :=
  (match t.phase with
   | .atPermit => 5
   | .atLease => 4
   | .atWrite => 3
   | .relLease _ => 2
   | .relPermit _ => 1
   | .done _ => 0) + (2 - t.attempt) * 5

/-- Total remaining-step bound of a dispatch state. -/
def measureS (s : Sched) : Nat := (s.tasks.map remTask).sum

/-- Invariant: no task ever uses more than the three attempts of the retry
decorator. -/
def TasksConsistent (s : Sched) : Prop := ∀ t ∈ s.tasks, t.attempt ≤ 2

/-- Invariant: whenever the gather future carries an error, some task has
completed with exactly that error after exhausting its three attempts. -/
def GatherWitness (s : Sched) : Prop :=
  ∀ e, s.gatherErr = some e →
    ∃ (i : Nat) (t : STask),
      s.tasks[i]? = some t ∧ t.phase = .done (.error e) ∧ t.attempt = 2

/-- Invariant: `execute` raises exactly the error carried by the gather
future. -/
def ExecFromGather (s : Sched) : Prop :=
  ∀ e, s.execRet = some (.error e) → s.gatherErr = some e

/-- Concrete empty dataframe used to instantiate theorems. -/
def dfEmptyW : DataFrame := ⟨["id", "name"], []⟩

/-- Concrete three-row dataframe used to instantiate theorems. -/
def dfW : DataFrame := ⟨["id", "name"], [["1", "ann"], ["2", "bob"], ["3", "cal"]]⟩

/-- Concrete dispatcher configuration used to instantiate theorems:
batch size 2, destination `sch.tbl`, pool bounds 2 and 4. -/
def bW : BatchInsert := ⟨2, "tbl", "sch", 2, 4, none⟩

/-- Task environment in which every attempt succeeds. -/
def envOkW : Nat → Script := fun _ _ => (true, Except.ok ())

/-- Three all-success task scripts. -/
def scriptsW : List Script :=
  [fun _ => (true, .ok ()), fun _ => (true, .ok ()), fun _ => (true, .ok ())]

/-- A concrete schedule: tasks 0 and 1 acquire the two permits, task 0
advances once more; task 2 remains waiting. -/
def csW : List Choice := [.task 0, .task 1, .task 0]

/-- The state the schedule `csW` reaches from `initSched 2 3`. -/
def sW : Sched := ⟨0, [⟨0, .atWrite⟩, ⟨0, .atLease⟩, ⟨0, .atPermit⟩], none, none⟩

/-- Two task scripts: the first fails every attempt with a protocol error,
the second succeeds. -/
def scriptsC : List Script :=
  [fun _ => (true, .error .transferProtocolError), fun _ => (true, .ok ())]

/-- A schedule running task 0 alone through its three failing attempts
(five steps each), then resuming the parent. -/
def csC : List Choice := List.replicate 15 (Choice.task 0) ++ [Choice.parent]

/-- The state the schedule `csC` reaches from `initSched 2 2`: `execute` has
raised the protocol error while task 1 has not even started. -/
def sC : Sched :=
  ⟨2, [⟨2, .done (.error .transferProtocolError)⟩, ⟨0, .atPermit⟩],
   some .transferProtocolError, some (.error .transferProtocolError)⟩

/-- Intermediate state of the `csC` schedule after the first failed attempt
of task 0 (five steps). -/
def sC5 : Sched := ⟨2, [⟨1, .atPermit⟩, ⟨0, .atPermit⟩], none, none⟩

/-- Intermediate state of the `csC` schedule after the second failed attempt
of task 0 (ten steps). -/
def sC10 : Sched := ⟨2, [⟨2, .atPermit⟩, ⟨0, .atPermit⟩], none, none⟩

/-- Intermediate state of the `csC` schedule after task 0 exhausts its three
attempts (fifteen steps): the task is done with the protocol error and the
gather future carries it, but `execute` has not resumed yet. -/
def sC15 : Sched :=
  ⟨2, [⟨2, .done (.error .transferProtocolError)⟩, ⟨0, .atPermit⟩],
   some .transferProtocolError, none⟩

namespace Ranges

theorem stop (bs fuel start total : Nat) (h : total ≤ start) :
    mkRangesAux bs fuel start total = [] := by
  cases fuel with
  | zero => rfl
  | succ f => simp [mkRangesAux, Nat.not_lt.mpr h]

theorem mem (bs fuel : Nat) : ∀ (start total : Nat) (r : Nat × Nat),
    r ∈ mkRangesAux bs fuel start total →
    start ≤ r.1 ∧ r.1 < total ∧ r.2 = min (r.1 + bs) total := by
  induction fuel with
  | zero => intro start total r hr; simp [mkRangesAux] at hr
  | succ f ih =>
    intro start total r hr
    simp only [mkRangesAux] at hr
    by_cases hlt : start < total
    · simp only [if_pos hlt, List.mem_cons] at hr
      rcases hr with hr | hr
      · subst hr; exact ⟨Nat.le_refl _, hlt, rfl⟩
      · have := ih (start + bs) total r hr
        exact ⟨Nat.le_trans (Nat.le_add_right _ _) this.1, this.2⟩
    · simp [if_neg hlt] at hr

theorem pairwise (bs fuel : Nat) : ∀ (start total : Nat),
    List.Pairwise (fun a b : Nat × Nat => a.2 ≤ b.1)
      (mkRangesAux bs fuel start total) := by
  induction fuel with
  | zero => intro start total; simp [mkRangesAux]
  | succ f ih =>
    intro start total
    simp only [mkRangesAux]
    by_cases hlt : start < total
    · simp only [if_pos hlt]
      refine List.Pairwise.cons ?_ (ih (start + bs) total)
      intro r hr
      have hm := mem bs f (start + bs) total r hr
      exact Nat.le_trans (Nat.min_le_left _ _) hm.1
    · simp [if_neg hlt]

theorem chain (bs fuel : Nat) : ∀ (start total : Nat),
    List.Chain' (fun a b : Nat × Nat => a.2 = b.1)
      (mkRangesAux bs fuel start total) := by
  induction fuel with
  | zero => intro start total; simp [mkRangesAux]
  | succ f ih =>
    intro start total
    simp only [mkRangesAux]
    by_cases hlt : start < total
    · simp only [if_pos hlt]
      refine List.chain'_cons'.mpr ⟨?_, ih (start + bs) total⟩
      intro r hr
      cases f with
      | zero => simp [mkRangesAux] at hr
      | succ f2 =>
        simp only [mkRangesAux] at hr
        by_cases hlt2 : start + bs < total
        · simp only [if_pos hlt2, List.head?_cons, Option.mem_def,
            Option.some.injEq] at hr
          subst hr
          simp [Nat.min_eq_left (Nat.le_of_lt hlt2)]
        · simp [if_neg hlt2] at hr
    · simp [if_neg hlt]

theorem cover (bs : Nat) : ∀ (fuel start total x : Nat),
    total ≤ start + fuel * bs → start ≤ x → x < total →
    ∃ r ∈ mkRangesAux bs fuel start total, r.1 ≤ x ∧ x < r.2 := by
  intro fuel
  induction fuel with
  | zero =>
    intro start total x hf hx1 hx2
    omega
  | succ f ih =>
    intro start total x hf hx1 hx2
    have hlt : start < total := Nat.lt_of_le_of_lt hx1 hx2
    simp only [mkRangesAux, if_pos hlt]
    by_cases hxm : x < min (start + bs) total
    · exact ⟨(start, min (start + bs) total), List.mem_cons_self _ _, hx1, hxm⟩
    · have hmx : min (start + bs) total ≤ x := Nat.le_of_not_lt hxm
      have hm_ne : min (start + bs) total ≠ total := by
        intro he; rw [he] at hmx; omega
      have hmeq : min (start + bs) total = start + bs := by
        rcases Nat.le_total (start + bs) total with h1 | h1
        · exact Nat.min_eq_left h1
        · exact absurd (Nat.min_eq_right h1) hm_ne
      rw [hmeq] at hmx
      have hf2 : total ≤ (start + bs) + f * bs := by
        have : start + (f + 1) * bs = (start + bs) + f * bs := by ring
        omega
      obtain ⟨r, hr, hrx⟩ := ih (start + bs) total x hf2 hmx hx2
      exact ⟨r, List.mem_cons_of_mem _ hr, hrx⟩

theorem nonempty (bs total : Nat) (ht : 0 < total) :
    mkRangesAux bs total 0 total ≠ [] := by
  cases total with
  | zero => omega
  | succ t => simp [mkRangesAux]

end Ranges

theorem retryRun_3_2_1 {α : Type} (op : Nat → Except Err α) :
    retryRun 3 2 1 op = retryPolicySpec op := by
  unfold retryRun retryPolicySpec
  cases h0 : op 0 with
  | ok a => simp [retryAux, h0]
  | error e0 =>
    cases h1 : op 1 with
    | ok a => simp [retryAux, h0, h1]
    | error e1 => simp [retryAux, h0, h1]

/-- C4: the per-range transfer (`bulk_load`, source line 83) and the pool
lifecycle operations (`open_connection_pool`, line 35, and
`close_connection_pool`, line 39) are wrapped in the same retry policy:
up to 3 total attempts with a constant 2-unit sleep between attempts
(backoff factor 1), and once the attempts are exhausted the third outcome —
in particular its error — is returned unchanged, with no wrapping. -/
theorem retry_policy_uniform (op1 op2 : Nat → Except Err Unit) (sc : Script) :
    open_connection_pool op1 = retryPolicySpec op1 ∧
    close_connection_pool op2 = retryPolicySpec op2 ∧
    bulk_load_retried sc = retryPolicySpec (attemptResult sc) :=
  ⟨retryRun_3_2_1 op1, retryRun_3_2_1 op2, retryRun_3_2_1 (attemptResult sc)⟩

/-- C3: one `bulk_load` attempt acquires the limiter permit first, requests
the pool lease with a 60-unit timeout, results in the pool-timeout error
when the lease is unavailable in time (and otherwise in the write outcome,
including cancellation, unchanged), and on every exit path releases both
resources: the permit is acquired and released exactly once, lease
acquisitions and releases balance, and the final event of the attempt is
the permit release, so the attempt never returns or re-raises while holding
either resource. -/
theorem bulk_load_attempt_resource_safe (leaseOk : Bool) (wres : Except Err Unit) :
    (bulkLoadAttemptTr leaseOk wres).2
        = (if leaseOk then wres else .error .poolTimeout) ∧
    (bulkLoadAttemptTr leaseOk wres).1.head? = some .permitAcq ∧
    (bulkLoadAttemptTr leaseOk wres).1.getLast? = some .permitRel ∧
    (bulkLoadAttemptTr leaseOk wres).1.count .permitAcq = 1 ∧
    (bulkLoadAttemptTr leaseOk wres).1.count .permitRel = 1 ∧
    (bulkLoadAttemptTr leaseOk wres).1.count .leaseAcq
        = (bulkLoadAttemptTr leaseOk wres).1.count .leaseRel ∧
    Ev.leaseReq 60 ∈ (bulkLoadAttemptTr leaseOk wres).1 := by
  cases leaseOk with
  | false =>
    exact ⟨rfl, rfl, rfl, rfl, rfl, rfl,
      by simp [bulkLoadAttemptTr, withSemaphore, poolConnection, copyStream]⟩
  | true =>
    exact ⟨rfl, rfl, rfl, rfl, rfl, rfl,
      by simp [bulkLoadAttemptTr, withSemaphore, poolConnection, copyStream]⟩

/-- C10: calling `execute` with an empty column-name list behaves
identically to calling it with no column selection: `if col_names:` is
falsy for the empty list, so the dataset is not projected and all its
columns are used in declared order. -/
theorem execute_empty_columns_like_none (b : BatchInsert) (df : DataFrame)
    (env : Nat → Script) :
    executeF b df (some []) env = executeF b df none env := rfl

/-- C8: on exit of every `execute` call — normal return or raise — the
dispatcher's `data_df` reference is cleared to `none`, and the behavior of a
call is independent of whatever `data_df` reference the dispatcher held on
entry, so no residual reference from one call is visible during a
subsequent one. -/
theorem execute_clears_dataset (b : BatchInsert) (df : DataFrame)
    (colNames : Option (List String)) (env : Nat → Script)
    (x : Option DataFrame) :
    (executeF b df colNames env).state.data_df = none ∧
    executeF { b with data_df := x } df colNames env
      = executeF b df colNames env := by
  constructor
  · unfold executeF
    cases get_ranges df.rows.length b.batch_size with
    | error e => rfl
    | ok ranges =>
      by_cases h : ranges.isEmpty
      · simp [h]
      · simp [h]
  · rfl

/-- C9: for a dataset with zero rows (and a validly configured positive
batch size), `execute` completes immediately as a successful no-op: the
partitioner yields zero ranges, no transfer task is launched, no error is
raised, and the dispatcher state is left with its dataset reference clear. -/
theorem execute_empty_dataset_noop (b : BatchInsert) (df : DataFrame)
    (colNames : Option (List String)) (env : Nat → Script)
    (hbs : 0 < b.batch_size) (hdf : df.rows = []) :
    get_ranges df.rows.length b.batch_size = .ok [] ∧
    executeF b df colNames env = ⟨{ b with data_df := none }, .ok (), []⟩ := by
  have h0 : df.rows.length = 0 := by rw [hdf]; rfl
  have hr : get_ranges df.rows.length b.batch_size = .ok [] := by
    rw [h0]
    unfold get_ranges
    rw [if_neg (by omega)]
    rfl
  refine ⟨hr, ?_⟩
  unfold executeF
  rw [hr]
  rfl

theorem execute_empty_dataset_noop_witness :
    get_ranges dfEmptyW.rows.length bW.batch_size = .ok [] ∧
    executeF bW dfEmptyW none envOkW = ⟨{ bW with data_df := none }, .ok (), []⟩ :=
  execute_empty_dataset_noop bW dfEmptyW none envOkW (by decide) rfl

/-- C5: for every `total_rows ≥ 0` and `batch_size > 0` the partitioner
returns an ordered sequence of contiguous half-open ranges of length
`batch_size` (the final range possibly shorter but nonempty) that are
pairwise non-overlapping and whose union is exactly `[0, total_rows)`;
for `batch_size ≤ 0` it fails with the invalid-argument error. -/
theorem partition_ranges_correct (total : Nat) (bs : Int) :
    (0 < bs → ∃ R, get_ranges total bs = .ok R ∧ GoodPartition total bs R) ∧
    (bs ≤ 0 → get_ranges total bs = .error .invalidArgument) := by
  constructor
  · intro hbs
    set k := bs.toNat with hk
    have hk1 : 1 ≤ k := by omega
    have hbsk : (k : Int) = bs := by omega
    refine ⟨mkRangesAux k total 0 total, ?_, ?_, ?_, ?_, ?_, ?_⟩
    · unfold get_ranges
      rw [if_neg (by omega)]
    · intro i h
      have hc := List.chain'_iff_get.mp (Ranges.chain k total 0 total) i (by omega)
      exact hc
    · intro i h
      have hmem : (mkRangesAux k total 0 total).get ⟨i, Nat.lt_of_succ_lt h⟩
          ∈ mkRangesAux k total 0 total := List.get_mem _ _ _
      have hmem2 : (mkRangesAux k total 0 total).get ⟨i + 1, h⟩
          ∈ mkRangesAux k total 0 total := List.get_mem _ _ _
      have h1 := Ranges.mem k total 0 total _ hmem
      have h2 := Ranges.mem k total 0 total _ hmem2
      have hchain := List.chain'_iff_get.mp (Ranges.chain k total 0 total) i (by omega)
      set a := (mkRangesAux k total 0 total).get ⟨i, Nat.lt_of_succ_lt h⟩
      set c := (mkRangesAux k total 0 total).get ⟨i + 1, h⟩
      have ha2 : a.2 = min (a.1 + k) total := h1.2.2
      have hc1 : c.1 < total := h2.2.1
      have haeq : a.2 = a.1 + k := by
        rcases Nat.le_total (a.1 + k) total with hle | hle
        · rw [ha2, Nat.min_eq_left hle]
        · rw [ha2, Nat.min_eq_right hle] at hchain ⊢
          omega
      rw [haeq]
      push_cast
      omega
    · intro r hr
      have hm := Ranges.mem k total 0 total r hr
      constructor
      · rw [hm.2.2]
        exact Nat.lt_min.mpr ⟨by omega, hm.2.1⟩
      · have : r.2 ≤ r.1 + k := by rw [hm.2.2]; exact Nat.min_le_left _ _
        omega
    · exact Ranges.pairwise k total 0 total
    · intro x
      constructor
      · intro hx
        have hf : total ≤ 0 + total * k := by
          have := Nat.mul_le_mul_left total hk1
          omega
        exact Ranges.cover k total 0 total x hf (Nat.zero_le x) hx
      · intro hex
        obtain ⟨r, hr, _, hx2⟩ := hex
        have hm := Ranges.mem k total 0 total r hr
        have : r.2 ≤ total := by rw [hm.2.2]; exact Nat.min_le_right _ _
        omega
  · intro hbs
    unfold get_ranges
    rw [if_pos hbs]

theorem partition_ranges_correct_witness :
    (∃ R, get_ranges 250 100 = .ok R ∧ GoodPartition 250 100 R) ∧
    get_ranges 250 (-1) = .error .invalidArgument :=
  ⟨(partition_ranges_correct 250 100).1 (by decide),
   (partition_ranges_correct 250 (-1)).2 (by decide)⟩

theorem joinSlices (bs : Nat) {α : Type} (l : List α) :
    ∀ (fuel start total : Nat), total ≤ start + fuel * bs → l.length = total →
    ((mkRangesAux bs fuel start total).map
        (fun r => (l.drop r.1).take (r.2 - r.1))).flatten = l.drop start := by
  intro fuel
  induction fuel with
  | zero =>
    intro start total hf hl
    simp only [mkRangesAux, List.map_nil, List.flatten_nil]
    exact (List.drop_eq_nil_of_le (by omega)).symm
  | succ f ih =>
    intro start total hf hl
    simp only [mkRangesAux]
    by_cases hlt : start < total
    · rw [if_pos hlt]
      simp only [List.map_cons, List.flatten_cons]
      rcases Nat.le_total (start + bs) total with hc | hc
      · rw [Nat.min_eq_left hc]
        have hf2 : total ≤ (start + bs) + f * bs := by
          have hexp : start + (f + 1) * bs = start + bs + f * bs := by ring
          omega
        rw [ih (start + bs) total hf2 hl]
        have hdd : l.drop (start + bs) = (l.drop start).drop bs :=
          (List.drop_drop bs start l).symm
        have hsub : start + bs - start = bs := by omega
        rw [hsub, hdd, List.take_append_drop]
      · rw [Nat.min_eq_right hc]
        rw [Ranges.stop bs f (start + bs) total hc]
        simp only [List.map_nil, List.flatten_nil, List.append_nil]
        have hlen : (l.drop start).length = total - start := by
          rw [List.length_drop]; omega
        exact List.take_of_length_le (le_of_eq hlen)
    · rw [if_neg hlt]
      simp only [List.map_nil, List.flatten_nil]
      exact (List.drop_eq_nil_of_le (by omega)).symm

theorem projectForInsert_length (df : DataFrame) (c : Option (List String)) :
    (projectForInsert df c).rows.length = df.rows.length := by
  unfold projectForInsert
  split
  · simp [dfProject]
  · rfl

/-- C6: for every successful `execute` call, the payload lines transmitted
across all launched transfer tasks are exactly one rendered line per dataset
row, in order — so the number of rows transmitted equals the dataset's row
count and no row is sent twice. -/
theorem execute_rows_conserved (b : BatchInsert) (df : DataFrame)
    (colNames : Option (List String)) (env : Nat → Script)
    (h : (executeF b df colNames env).result = .ok ()) :
    ((executeF b df colNames env).sent.map Prod.snd).flatten
        = (projectForInsert df colNames).rows.map renderRow ∧
    (((executeF b df colNames env).sent.map Prod.snd).flatten).length
        = df.rows.length := by
  by_cases hbs : b.batch_size ≤ 0
  · exfalso
    unfold executeF get_ranges at h
    rw [if_pos hbs] at h
    simp at h
  · have hk1 : 1 ≤ b.batch_size.toNat := by omega
    set k := b.batch_size.toNat with hk
    set total := df.rows.length with htot
    have hg : get_ranges total b.batch_size = .ok (mkRangesAux k total 0 total) := by
      unfold get_ranges; rw [if_neg hbs]
    set R := mkRangesAux k total 0 total with hR
    by_cases he : R.isEmpty
    · have hrows : df.rows = [] := by
        by_contra hne
        have hpos : 0 < df.rows.length := List.length_pos.mpr hne
        exact Ranges.nonempty k total hpos (List.isEmpty_iff.mp he)
      simp only [executeF, hg, if_pos he]
      constructor
      · simp only [projectForInsert, dfProject, hrows, List.map_nil]
        split <;> simp [hrows]
      · have h0 : total = 0 := by rw [htot, hrows]; rfl
        simp [h0]
    · simp only [executeF, hg, if_neg he]
      have hlproj : ((projectForInsert df colNames).rows.map renderRow).length
          = total := by
        rw [List.length_map, projectForInsert_length]
      have hf : total ≤ 0 + total * k := by
        have := Nat.mul_le_mul_left total hk1
        omega
      have hjoin := joinSlices k ((projectForInsert df colNames).rows.map renderRow)
        total 0 total hf hlproj
      rw [List.drop_zero] at hjoin
      constructor
      · simp only [List.map_map]
        have hfun : (Prod.snd ∘ fun r : Nat × Nat =>
            (copyQuery (b.schema ++ "." ++ b.table_name)
              (String.intercalate ","
                (if truthy colNames then colNames.getD []
                 else (projectForInsert df colNames).cols)),
             to_csv (dfSlice (projectForInsert df colNames) r.1 r.2) false))
            = fun r : Nat × Nat =>
              (((projectForInsert df colNames).rows.map renderRow).drop r.1).take
                (r.2 - r.1) := by
          funext r
          simp [to_csv, dfSlice, List.map_take, List.map_drop]
        rw [hfun, hjoin]
      · simp only [List.map_map]
        have hfun2 : (Prod.snd ∘ fun r : Nat × Nat =>
            (copyQuery (b.schema ++ "." ++ b.table_name)
              (String.intercalate ","
                (if truthy colNames then colNames.getD []
                 else (projectForInsert df colNames).cols)),
             to_csv (dfSlice (projectForInsert df colNames) r.1 r.2) false))
            = fun r : Nat × Nat =>
              (((projectForInsert df colNames).rows.map renderRow).drop r.1).take
                (r.2 - r.1) := by
          funext r
          simp [to_csv, dfSlice, List.map_take, List.map_drop]
        rw [hfun2, hjoin, hlproj]

theorem execute_rows_conserved_witness :
    ((executeF bW dfW none envOkW).sent.map Prod.snd).flatten
        = (projectForInsert dfW none).rows.map renderRow ∧
    (((executeF bW dfW none envOkW).sent.map Prod.snd).flatten).length
        = dfW.rows.length :=
  execute_rows_conserved bW dfW none envOkW (by decide)

/-- C7: each launched transfer serializes exactly the dataset rows of its
range, projected to the selected columns, as comma-separated lines with no
header (the line count equals the range size), preserving the original
relative row order, and pairs that payload with the COPY command for the
configured destination `schema.table` — the command built at source line 86
and streamed at line 94. -/
theorem transfer_payload_exact (b : BatchInsert) (df : DataFrame)
    (colNames : Option (List String)) (env : Nat → Script) (i : Nat)
    (hi : i < (executeF b df colNames env).sent.length) :
    ∃ R r, get_ranges df.rows.length b.batch_size = .ok R ∧ R[i]? = some r ∧
      (executeF b df colNames env).sent[i]?
        = some (copyQuery (b.schema ++ "." ++ b.table_name)
                  (String.intercalate ","
                    (if truthy colNames then colNames.getD []
                     else (projectForInsert df colNames).cols)),
                (((projectForInsert df colNames).rows.drop r.1).take (r.2 - r.1)).map
                  renderRow) ∧
      ((((projectForInsert df colNames).rows.drop r.1).take (r.2 - r.1)).map
          renderRow).length = r.2 - r.1 := by
  by_cases hbs : b.batch_size ≤ 0
  · exfalso
    revert hi
    unfold executeF get_ranges
    rw [if_pos hbs]
    simp
  · have hk1 : 1 ≤ b.batch_size.toNat := by omega
    set k := b.batch_size.toNat with hk
    set total := df.rows.length with htot
    have hg : get_ranges total b.batch_size = .ok (mkRangesAux k total 0 total) := by
      unfold get_ranges; rw [if_neg hbs]
    set R := mkRangesAux k total 0 total with hR
    by_cases he : R.isEmpty
    · exfalso
      revert hi
      simp only [executeF, hg, if_pos he]
      simp
    · have hi2 : i < R.length := by
        revert hi
        simp only [executeF, hg, if_neg he]
        simp
      refine ⟨R, R[i], hg, List.getElem?_eq_getElem hi2, ?_, ?_⟩
      · simp only [executeF, hg, if_neg he]
        rw [List.getElem?_map, List.getElem?_eq_getElem hi2]
        simp only [Option.map_some']
        have hcsv : to_csv (dfSlice (projectForInsert df colNames) R[i].1 R[i].2) false
            = (((projectForInsert df colNames).rows.drop R[i].1).take
                (R[i].2 - R[i].1)).map renderRow := by
          simp [to_csv, dfSlice]
        rw [hcsv]
      · have hmem : R[i] ∈ R := List.getElem_mem hi2
        have hm := Ranges.mem k total 0 total R[i] hmem
        have hr2 : R[i].2 ≤ total := by
          rw [hm.2.2]; exact Nat.min_le_right _ _
        rw [List.length_map, List.length_take, List.length_drop,
          projectForInsert_length]
        omega

theorem transfer_payload_exact_witness :
    ∃ R r, get_ranges dfW.rows.length bW.batch_size = .ok R ∧ R[0]? = some r ∧
      (executeF bW dfW none envOkW).sent[0]?
        = some (copyQuery (bW.schema ++ "." ++ bW.table_name)
                  (String.intercalate ","
                    (if truthy none then (none : Option (List String)).getD []
                     else (projectForInsert dfW none).cols)),
                (((projectForInsert dfW none).rows.drop r.1).take (r.2 - r.1)).map
                  renderRow) ∧
      ((((projectForInsert dfW none).rows.drop r.1).take (r.2 - r.1)).map
          renderRow).length = r.2 - r.1 :=
  transfer_payload_exact bW dfW none envOkW 0 (by decide)

theorem sum_set_nat : ∀ (nl : List Nat) (i x a : Nat), nl[i]? = some a →
    (nl.set i x).sum + a = nl.sum + x := by
  intro nl
  induction nl with
  | nil => intro i x a h; simp at h
  | cons b l ih =>
    intro i x a h
    cases i with
    | zero =>
      simp only [List.getElem?_cons_zero, Option.some.injEq] at h
      subst h
      simp [List.set]
      omega
    | succ j =>
      simp only [List.getElem?_cons_succ] at h
      have hr := ih j x a h
      simp only [List.set, List.sum_cons]
      omega

theorem heldSum_set (l : List STask) (i : Nat) (t t2 : STask)
    (ht : l[i]? = some t) :
    ((l.set i t2).map fun u => permitVal u.phase).sum + permitVal t.phase
      = (l.map fun u => permitVal u.phase).sum + permitVal t2.phase := by
  rw [List.map_set]
  refine sum_set_nat _ i _ _ ?_
  rw [List.getElem?_map, ht]
  rfl

theorem remSum_set (l : List STask) (i : Nat) (t t2 : STask)
    (ht : l[i]? = some t) :
    ((l.set i t2).map remTask).sum + remTask t
      = (l.map remTask).sum + remTask t2 := by
  rw [List.map_set]
  refine sum_set_nat _ i _ _ ?_
  rw [List.getElem?_map, ht]
  rfl

theorem stepF_parent_spec (scripts : List Script) (s s2 : Sched)
    (h : stepF scripts s .parent = some s2) :
    s2.tasks = s.tasks ∧ s2.sem = s.sem ∧ s2.gatherErr = s.gatherErr ∧
    ((∃ e, s.gatherErr = some e ∧ s2.execRet = some (.error e)) ∨
      s2.execRet = some (.ok ())) := by
  simp only [stepF] at h
  split at h
  · exact absurd h (by simp)
  · split at h
    · rename_i e heq
      injection h with hh
      subst hh
      exact ⟨rfl, rfl, rfl, .inl ⟨e, heq, rfl⟩⟩
    · split at h
      · injection h with hh
        subst hh
        exact ⟨rfl, rfl, rfl, .inr rfl⟩
      · exact absurd h (by simp)

theorem stepF_task_spec (scripts : List Script) (s s2 : Sched) (i : Nat)
    (h : stepF scripts s (.task i) = some s2) :
    ∃ t t2 : STask, s.tasks[i]? = some t ∧
      s2.tasks = s.tasks.set i t2 ∧
      s2.execRet = s.execRet ∧
      phaseDone t.phase = false ∧
      remTask t2 < remTask t ∧
      s2.sem + permitVal t2.phase = s.sem + permitVal t.phase ∧
      (t2.attempt ≤ 2 ∨ t2.attempt = t.attempt) ∧
      (∀ e0, s.gatherErr = some e0 → s2.gatherErr = some e0) ∧
      (∀ e, s2.gatherErr = some e → s.gatherErr = some e ∨
        (t2.phase = .done (.error e) ∧ t2.attempt = t.attempt ∧ 2 ≤ t.attempt)) := by
  simp only [stepF] at h
  split at h
  case _ t sc ht hsc =>
    split at h
    · rename_i htp
      split at h
      · rename_i hsem
        injection h with hh
        subst hh
        refine ⟨t, ⟨t.attempt, .atLease⟩, ht, rfl, rfl, ?_, ?_, ?_,
          .inr rfl, fun e0 he0 => he0, fun e he => .inl he⟩
        · rw [htp]; rfl
        · simp [remTask, htp]
        · simp [permitVal, htp]; omega
      · exact absurd h (by simp)
    · rename_i htp
      split at h
      · injection h with hh
        subst hh
        refine ⟨t, ⟨t.attempt, .atWrite⟩, ht, rfl, rfl, ?_, ?_, ?_,
          .inr rfl, fun e0 he0 => he0, fun e he => .inl he⟩
        · rw [htp]; rfl
        · simp [remTask, htp]
        · simp [permitVal, htp]
      · injection h with hh
        subst hh
        refine ⟨t, ⟨t.attempt, .relPermit (.error .poolTimeout)⟩, ht, rfl, rfl,
          ?_, ?_, ?_, .inr rfl, fun e0 he0 => he0, fun e he => .inl he⟩
        · rw [htp]; rfl
        · simp [remTask, htp]
        · simp [permitVal, htp]
    · rename_i htp
      injection h with hh
      subst hh
      refine ⟨t, ⟨t.attempt, .relLease (sc t.attempt).2⟩, ht, rfl, rfl, ?_, ?_,
        ?_, .inr rfl, fun e0 he0 => he0, fun e he => .inl he⟩
      · rw [htp]; rfl
      · simp [remTask, htp]
      · simp [permitVal, htp]
    · rename_i r htp
      injection h with hh
      subst hh
      refine ⟨t, ⟨t.attempt, .relPermit r⟩, ht, rfl, rfl, ?_, ?_, ?_,
        .inr rfl, fun e0 he0 => he0, fun e he => .inl he⟩
      · rw [htp]; rfl
      · simp [remTask, htp]
      · simp [permitVal, htp]
    · rename_i r htp
      split at h
      · injection h with hh
        subst hh
        refine ⟨t, ⟨t.attempt, .done (.ok ())⟩, ht, rfl, rfl, ?_, ?_, ?_,
          .inr rfl, fun e0 he0 => he0, fun e he => .inl he⟩
        · rw [htp]; rfl
        · simp [remTask, htp]
        · simp [permitVal, htp]
      · rename_i e1
        split at h
        · rename_i hlt
          injection h with hh
          subst hh
          refine ⟨t, ⟨t.attempt + 1, .atPermit⟩, ht, rfl, rfl, ?_, ?_, ?_,
            .inl (show t.attempt + 1 ≤ 2 by omega), fun e0 he0 => he0,
            fun e he => .inl he⟩
          · rw [htp]; rfl
          · simp only [remTask, htp]; omega
          · simp [permitVal, htp]
        · rename_i hlt
          injection h with hh
          subst hh
          refine ⟨t, ⟨t.attempt, .done (.error e1)⟩, ht, rfl, rfl, ?_, ?_, ?_,
            .inr rfl, ?_, ?_⟩
          · rw [htp]; rfl
          · simp [remTask, htp]
          · simp [permitVal, htp]
          · intro e0 he0
            simp only [he0]
          · intro e he
            cases hg : s.gatherErr with
            | some e0 =>
              rw [hg] at he
              injection he with he2
              exact .inl (by rw [he2])
            | none =>
              rw [hg] at he
              injection he with he2
              subst he2
              exact .inr ⟨rfl, rfl, by omega⟩
    · exact absurd h (by simp)
  case _ =>
    exact absurd h (by simp)

theorem stepF_preserves (scripts : List Script) (s s2 : Sched) (c : Choice)
    (h : stepF scripts s c = some s2) :
    s2.sem + permitsHeld s2 = s.sem + permitsHeld s ∧
    s2.tasks.length = s.tasks.length := by
  cases c with
  | parent =>
    obtain ⟨ht, hs, _, _⟩ := stepF_parent_spec scripts s s2 h
    constructor
    · simp [permitsHeld, ht, hs]
    · rw [ht]
  | task i =>
    obtain ⟨t, t2, ht, htasks, _, _, _, hsem, _, _, _⟩ :=
      stepF_task_spec scripts s s2 i h
    have hsum := heldSum_set s.tasks i t t2 ht
    constructor
    · have hp2 : permitsHeld s2
          = ((s.tasks.set i t2).map fun u => permitVal u.phase).sum := by
        rw [permitsHeld, htasks]
      rw [hp2]
      have hp1 : permitsHeld s = (s.tasks.map fun u => permitVal u.phase).sum := rfl
      omega
    · rw [htasks]
      simp

theorem runS_preserves (scripts : List Script) :
    ∀ (cs : List Choice) (s s2 : Sched), runS scripts s cs = some s2 →
      s2.sem + permitsHeld s2 = s.sem + permitsHeld s ∧
      s2.tasks.length = s.tasks.length := by
  intro cs
  induction cs with
  | nil =>
    intro s s2 h
    simp only [runS] at h
    injection h with hh
    subst hh
    exact ⟨rfl, rfl⟩
  | cons c cs ih =>
    intro s s2 h
    simp only [runS] at h
    cases hstep : stepF scripts s c with
    | none => rw [hstep] at h; exact absurd h (by simp)
    | some smid =>
      rw [hstep] at h
      obtain ⟨h1, h2⟩ := stepF_preserves scripts s smid c hstep
      obtain ⟨h3, h4⟩ := ih smid s2 h
      exact ⟨by omega, by omega⟩

/-- C2: every dispatch launched by `handle_csv_bulk_insert` shares one
semaphore sized to `min_conn` across all its transfer tasks (the initial
state `initSched`), and along every schedule the number of concurrently held
permits never exceeds `min_conn`. -/
theorem dispatch_permits_bounded (minConn n : Nat) (scripts : List Script)
    (cs : List Choice) (s : Sched)
    (h : runS scripts (initSched minConn n) cs = some s) :
    permitsHeld s ≤ minConn := by
  obtain ⟨h1, _⟩ := runS_preserves scripts cs (initSched minConn n) s h
  have h0 : permitsHeld (initSched minConn n) = 0 := by
    simp [permitsHeld, initSched, permitVal]
  have hsem0 : (initSched minConn n).sem = minConn := rfl
  omega

theorem dispatch_permits_bounded_witness : permitsHeld sW ≤ 2 :=
  dispatch_permits_bounded 2 3 scriptsW csW sW (by decide)

theorem runS_append_some (scripts : List Script) :
    ∀ (cs1 : List Choice) (s m : Sched), runS scripts s cs1 = some m →
    ∀ cs2, runS scripts s (cs1 ++ cs2) = runS scripts m cs2 := by
  intro cs1
  induction cs1 with
  | nil =>
    intro s m h cs2
    simp only [runS] at h
    injection h with hh
    subst hh
    rfl
  | cons c cs ih =>
    intro s m h cs2
    simp only [runS] at h
    cases hstep : stepF scripts s c with
    | none => rw [hstep] at h; exact absurd h (by simp)
    | some s2 =>
      rw [hstep] at h
      have hgoal : runS scripts s (c :: (cs ++ cs2)) = runS scripts m cs2 := by
        simp only [runS, hstep]
        exact ih s2 m h cs2
      exact hgoal

theorem runC_leg1 :
    runS scriptsC (initSched 2 2) (List.replicate 5 (Choice.task 0))
      = some sC5 := by decide

theorem runC_leg2 :
    runS scriptsC sC5 (List.replicate 5 (Choice.task 0)) = some sC10 := by decide

theorem runC_leg3 :
    runS scriptsC sC10 (List.replicate 5 (Choice.task 0)) = some sC15 := by decide

theorem runC_leg4 : runS scriptsC sC15 [Choice.parent] = some sC := by decide

theorem runC_full : runS scriptsC (initSched 2 2) csC = some sC := by
  have hsplit : csC = List.replicate 5 (Choice.task 0)
      ++ (List.replicate 5 (Choice.task 0)
        ++ (List.replicate 5 (Choice.task 0) ++ [Choice.parent])) := by decide
  rw [hsplit]
  rw [runS_append_some scriptsC _ _ _ runC_leg1]
  rw [runS_append_some scriptsC _ _ _ runC_leg2]
  rw [runS_append_some scriptsC _ _ _ runC_leg3]
  exact runC_leg4

/-- C1 counterexample: with two transfer tasks, the first failing all three
attempts with a protocol error and the second succeeding, there is a valid
schedule under which `execute` has already raised the protocol error (the
gather future propagates the first exception immediately) while the second
task is still in flight — so `execute` does not wait for the other
in-flight tasks to finish before returning. -/
theorem gather_returns_before_tasks_finish :
    runS scriptsC (initSched 2 2) csC = some sC ∧
    sC.execRet = some (.error .transferProtocolError) ∧
    (sC.tasks.all fun t => phaseDone t.phase) = false :=
  ⟨runC_full, rfl, by decide⟩

theorem stepF_cinv (scripts : List Script) (s s2 : Sched) (c : Choice)
    (h : stepF scripts s c = some s2)
    (h1 : TasksConsistent s) (h2 : GatherWitness s) (h3 : ExecFromGather s) :
    TasksConsistent s2 ∧ GatherWitness s2 ∧ ExecFromGather s2 := by
  cases c with
  | parent =>
    obtain ⟨ht, _, hg, hres⟩ := stepF_parent_spec scripts s s2 h
    refine ⟨?_, ?_, ?_⟩
    · intro t htm
      rw [ht] at htm
      exact h1 t htm
    · intro e he
      rw [hg] at he
      obtain ⟨i, tt, hi, hp, ha⟩ := h2 e he
      exact ⟨i, tt, by rw [ht]; exact hi, hp, ha⟩
    · intro e he
      rw [hg]
      rcases hres with ⟨e2, hge, hee⟩ | hee
      · rw [hee] at he
        injection he with he2
        injection he2 with he3
        exact he3 ▸ hge
      · rw [hee] at he
        injection he with he2
        exact absurd he2 (by simp)
  | task i =>
    obtain ⟨t, t2, ht, htasks, hexec, hnd, _, _, hatt, hgf, hgb⟩ :=
      stepF_task_spec scripts s s2 i h
    have htmem : t ∈ s.tasks := by
      rcases List.getElem?_eq_some.mp ht with ⟨hl, he⟩
      exact he ▸ List.getElem_mem hl
    refine ⟨?_, ?_, ?_⟩
    · intro u hu
      rw [htasks] at hu
      rcases List.mem_or_eq_of_mem_set hu with hu2 | hu2
      · exact h1 u hu2
      · subst hu2
        rcases hatt with ha | ha
        · exact ha
        · rw [ha]
          exact h1 t htmem
    · intro e he
      rcases hgb e he with hge | ⟨hph, hat, hat2⟩
      · obtain ⟨j, tt, hj, hp, ha2⟩ := h2 e hge
        by_cases hij : i = j
        · subst hij
          rw [ht] at hj
          injection hj with hj2
          subst hj2
          rw [hp] at hnd
          simp [phaseDone] at hnd
        · refine ⟨j, tt, ?_, hp, ha2⟩
          rw [htasks, List.getElem?_set_ne hij]
          exact hj
      · refine ⟨i, t2, ?_, hph, ?_⟩
        · have hl : i < s.tasks.length := (List.getElem?_eq_some.mp ht).1
          rw [htasks]
          simp [List.getElem?_set_self, hl]
        · have hta : t.attempt ≤ 2 := h1 t htmem
          omega
    · intro e he
      rw [hexec] at he
      exact hgf e (h3 e he)

theorem runS_cinv (scripts : List Script) :
    ∀ (cs : List Choice) (s s2 : Sched), runS scripts s cs = some s2 →
      TasksConsistent s → GatherWitness s → ExecFromGather s →
      TasksConsistent s2 ∧ GatherWitness s2 ∧ ExecFromGather s2 := by
  intro cs
  induction cs with
  | nil =>
    intro s s2 h ha hb hc
    simp only [runS] at h
    injection h with hh
    subst hh
    exact ⟨ha, hb, hc⟩
  | cons c cs ih =>
    intro s s2 h ha hb hc
    simp only [runS] at h
    cases hstep : stepF scripts s c with
    | none => rw [hstep] at h; exact absurd h (by simp)
    | some smid =>
      rw [hstep] at h
      obtain ⟨ha2, hb2, hc2⟩ := stepF_cinv scripts s smid c hstep ha hb hc
      exact ih smid s2 h ha2 hb2 hc2

theorem initSched_cinv (mc n : Nat) :
    TasksConsistent (initSched mc n) ∧ GatherWitness (initSched mc n) ∧
    ExecFromGather (initSched mc n) := by
  refine ⟨?_, ?_, ?_⟩
  · intro t ht
    have he := List.eq_of_mem_replicate ht
    rw [he]
    exact Nat.zero_le 2
  · intro e he
    simp [initSched] at he
  · intro e he
    simp [initSched] at he

theorem exists_enabled (scripts : List Script) (s : Sched) (mc : Nat)
    (hmc : 1 ≤ mc) (hsem : s.sem + permitsHeld s = mc)
    (hlen : s.tasks.length = scripts.length)
    (hnd : ¬ ∀ t ∈ s.tasks, phaseDone t.phase = true) :
    ∃ (i : Nat) (s2 : Sched), stepF scripts s (.task i) = some s2 := by
  push_neg at hnd
  obtain ⟨t, htm, htd⟩ := hnd
  have htd2 : phaseDone t.phase = false := by simpa using htd
  obtain ⟨i, hi⟩ := List.mem_iff_getElem?.mp htm
  have hil : i < s.tasks.length := (List.getElem?_eq_some.mp hi).1
  by_cases hex : ∃ (j : Nat) (u : STask), s.tasks[j]? = some u ∧
      phaseDone u.phase = false ∧ u.phase ≠ .atPermit
  · obtain ⟨j, u, hj, hud, hup⟩ := hex
    have hjl : j < s.tasks.length := (List.getElem?_eq_some.mp hj).1
    have hjsc : scripts[j]? = some scripts[j] :=
      List.getElem?_eq_getElem (by omega)
    refine ⟨j, ?_⟩
    cases hup2 : u.phase with
    | atPermit => exact absurd hup2 hup
    | atLease =>
      simp only [stepF, hj, hjsc, hup2]
      by_cases hb : (scripts[j] u.attempt).1 = true
      · rw [if_pos hb]
        exact ⟨_, rfl⟩
      · rw [if_neg hb]
        exact ⟨_, rfl⟩
    | atWrite =>
      simp only [stepF, hj, hjsc, hup2]
      exact ⟨_, rfl⟩
    | relLease r =>
      simp only [stepF, hj, hjsc, hup2]
      exact ⟨_, rfl⟩
    | relPermit r =>
      simp only [stepF, hj, hjsc, hup2]
      cases r with
      | ok u2 => exact ⟨_, rfl⟩
      | error e1 =>
        by_cases hb : u.attempt + 1 < 3
        · refine ⟨{ s with
            sem := s.sem + 1,
            tasks := s.tasks.set j ⟨u.attempt + 1, .atPermit⟩ }, ?_⟩
          simp [hb]
        · refine ⟨{ s with
            sem := s.sem + 1,
            tasks := s.tasks.set j ⟨u.attempt, .done (.error e1)⟩,
            gatherErr := (match s.gatherErr with
              | some e0 => some e0
              | none => some e1) }, ?_⟩
          simp [hb]
    | done r =>
      rw [hup2] at hud
      simp [phaseDone] at hud
  · push_neg at hex
    have hheld : permitsHeld s = 0 := by
      unfold permitsHeld
      apply List.sum_eq_zero
      intro x hx
      rcases List.mem_map.mp hx with ⟨u, hum, hux⟩
      obtain ⟨j, hj⟩ := List.mem_iff_getElem?.mp hum
      by_cases hud : phaseDone u.phase = true
      · rw [← hux]
        cases hp : u.phase <;> simp [phaseDone, permitVal, hp] at hud ⊢
      · have hup := hex j u hj (by simpa using hud)
        rw [← hux, hup]
        rfl
    have htp : t.phase = .atPermit := hex i t hi htd2
    have hisc : scripts[i]? = some scripts[i] :=
      List.getElem?_eq_getElem (by omega)
    refine ⟨i, ?_⟩
    simp only [stepF, hi, hisc, htp]
    rw [if_pos (by omega)]
    exact ⟨_, rfl⟩

theorem finish_tasks (scripts : List Script) (mc : Nat) (hmc : 1 ≤ mc) :
    ∀ (fuel : Nat) (s : Sched), measureS s ≤ fuel →
      s.sem + permitsHeld s = mc → s.tasks.length = scripts.length →
      ∃ (cs2 : List Choice) (s2 : Sched), runS scripts s cs2 = some s2 ∧
        (∀ t ∈ s2.tasks, phaseDone t.phase = true) ∧ s2.execRet = s.execRet := by
  intro fuel
  induction fuel with
  | zero =>
    intro s hm hsem hlen
    by_cases hdone : ∀ t ∈ s.tasks, phaseDone t.phase = true
    · exact ⟨[], s, rfl, hdone, rfl⟩
    · obtain ⟨i, s2, hstep⟩ := exists_enabled scripts s mc hmc hsem hlen hdone
      obtain ⟨t, t2, ht, htasks, _, _, hrem, _, _, _, _⟩ :=
        stepF_task_spec scripts s s2 i hstep
      have hsum := remSum_set s.tasks i t t2 ht
      have hms2 : measureS s2 + remTask t = measureS s + remTask t2 := by
        rw [measureS, htasks]
        exact hsum
      omega
  | succ f ih =>
    intro s hm hsem hlen
    by_cases hdone : ∀ t ∈ s.tasks, phaseDone t.phase = true
    · exact ⟨[], s, rfl, hdone, rfl⟩
    · obtain ⟨i, s2, hstep⟩ := exists_enabled scripts s mc hmc hsem hlen hdone
      obtain ⟨t, t2, ht, htasks, hexec, _, hrem, _, _, _, _⟩ :=
        stepF_task_spec scripts s s2 i hstep
      have hsum := remSum_set s.tasks i t t2 ht
      have hms2 : measureS s2 + remTask t = measureS s + remTask t2 := by
        rw [measureS, htasks]
        exact hsum
      obtain ⟨hp1, hp2⟩ := stepF_preserves scripts s s2 (.task i) hstep
      obtain ⟨cs2, s3, hrun, hdone3, hexec3⟩ := ih s2 (by omega) (by omega) (by omega)
      refine ⟨.task i :: cs2, s3, ?_, hdone3, by rw [hexec3, hexec]⟩
      simp only [runS, hstep]
      exact hrun

/-- C1 amended: when `execute` raises, the raised error is exactly the
error of a transfer task that completed after exhausting its three attempts
(the first failure to occur — `asyncio.gather` propagates the first raised
exception with its kind preserved); the other in-flight tasks are not
cancelled and can still run to completion after `execute` has returned —
but `execute` does not wait for them before returning. -/
theorem execute_failure_kind_preserved_tasks_continue (minConn : Nat)
    (scripts : List Script) (cs : List Choice) (s : Sched) (e : Err)
    (hmc : 1 ≤ minConn)
    (h : runS scripts (initSched minConn scripts.length) cs = some s)
    (he : s.execRet = some (.error e)) :
    (∃ (i : Nat) (t : STask), s.tasks[i]? = some t ∧
        t.phase = .done (.error e) ∧ t.attempt = 2) ∧
    (∃ (cs2 : List Choice) (s2 : Sched), runS scripts s cs2 = some s2 ∧
        (∀ t ∈ s2.tasks, phaseDone t.phase = true) ∧
        s2.execRet = some (.error e)) := by
  have hinit := initSched_cinv minConn scripts.length
  obtain ⟨hc1, hc2, hc3⟩ := runS_cinv scripts cs _ s h hinit.1 hinit.2.1 hinit.2.2
  have hge := hc3 e he
  constructor
  · exact hc2 e hge
  · obtain ⟨hp1, hp2⟩ := runS_preserves scripts cs _ s h
    have h0 : permitsHeld (initSched minConn scripts.length) = 0 := by
      simp [permitsHeld, initSched, permitVal]
    have hsem0 : (initSched minConn scripts.length).sem = minConn := rfl
    have hlen0 : (initSched minConn scripts.length).tasks.length
        = scripts.length := by
      simp [initSched]
    obtain ⟨cs2, s2, hrun, hdone, hexec⟩ := finish_tasks scripts minConn hmc
      (measureS s) s (le_refl _) (by omega) (by omega)
    exact ⟨cs2, s2, hrun, hdone, by rw [hexec, he]⟩

theorem execute_failure_kind_preserved_tasks_continue_witness :
    (∃ (i : Nat) (t : STask), sC.tasks[i]? = some t ∧
        t.phase = .done (.error .transferProtocolError) ∧ t.attempt = 2) ∧
    (∃ (cs2 : List Choice) (s2 : Sched), runS scriptsC sC cs2 = some s2 ∧
        (∀ t ∈ s2.tasks, phaseDone t.phase = true) ∧
        s2.execRet = some (.error .transferProtocolError)) :=
  execute_failure_kind_preserved_tasks_continue 2 scriptsC csC sC
    .transferProtocolError (by omega) runC_full rfl
